import Mathlib

/-!
Verification of the structure-preserving `.env` editor in
`src/server/env.service.js` (repository `litepacks/envx-ui`).

Strings are modelled as `List Char` (JavaScript strings are sequences of
characters; all inputs of interest are plain text).  File I/O is modelled
away: `parseEnvFile` takes the file content as an argument and
`writeEnvFile` returns the content that would be written.  Every function
is translated line by line from the JavaScript source.
-/

namespace EnvService

/-- Whitespace characters removed by JavaScript `String.prototype.trim`
(the ASCII ones; the source never deals in exotic Unicode whitespace). -/
def isWs (c : Char) : Bool :=
  c = ' ' || c = '\t' || c = '\n' || c = '\r' || c = '\x0b' || c = '\x0c'

/-- Model of JavaScript `s.trimStart()`. -/
def trimLeft (s : List Char) : List Char := s.dropWhile isWs

/-- Model of JavaScript `s.trimEnd()`. -/
def trimRight (s : List Char) : List Char := (s.reverse.dropWhile isWs).reverse

/-- Model of JavaScript `s.trim()`. -/
def trim (s : List Char) : List Char := trimRight (trimLeft s)

/-- Does the string start with character `c`?  Model of `s.startsWith(c)`
for a one-character needle. -/
def startsWithChar (s : List Char) (c : Char) : Bool :=
  match s with
  | [] => false
  | d :: _ => d = c

/-- Does the string end with character `c`?  Model of `s.endsWith(c)` for a
one-character needle. -/
def endsWithChar (s : List Char) (c : Char) : Bool :=
  startsWithChar s.reverse c

/-- Index of the first occurrence of `c`, i.e. JavaScript `s.indexOf(c)`
(with `none` in place of `-1`). -/
def firstIdxOf (c : Char) : List Char → Option Nat
  | [] => none
  | d :: rest => if d = c then some 0 else (firstIdxOf c rest).map (· + 1)

/-- Model of JavaScript `content.split('\n')`: the list of segments between
line feeds.  The empty string yields one empty segment and a trailing line
feed yields a trailing empty segment, exactly as in JavaScript. -/
def splitLines : List Char → List (List Char)
  | [] => [[]]
  | c :: rest =>
    if c = '\n' then [] :: splitLines rest
    else
      match splitLines rest with
      | [] => [[c]]
      | l :: ls => (c :: l) :: ls

/-- Model of JavaScript `lines.join('\n')`. -/
def joinNl : List (List Char) → List Char
  | [] => []
  | [l] => l
  | l :: ls => l ++ '\n' :: joinNl ls

/-- One parsed line of an env file, mirroring the objects pushed onto
`result.lines` by `parseEnvFile`: the `type` tag becomes the constructor
(`empty`, `comment`, `entry`, `unknown`) and the other JavaScript fields
become arguments. -/
inductive Line
  | empty (raw : List Char)
  | comment (raw : List Char)
  | entry (key value : List Char) (encrypted : Bool) (raw : List Char)
  | unknown (raw : List Char)
deriving DecidableEq, Repr

/-- The `raw` field common to every line variant. -/
def Line.rawOf : Line → List Char
  | .empty raw => raw
  | .comment raw => raw
  | .entry _ _ _ raw => raw
  | .unknown raw => raw

/-- Is the line a key-value entry (`type === 'entry'`)? -/
def Line.isEntry : Line → Bool
  | .entry _ _ _ _ => true
  | _ => false

/-- Is the line an entry whose key is `k`?  This is the predicate
`l.type === 'entry' && l.key === key` used by the three mutators. -/
def Line.isEntryWithKey (l : Line) (k : List Char) : Bool :=
  match l with
  | .entry key _ _ _ => key = k
  | _ => false

/-- The parsed structure returned by `parseEnvFile`:
`{ filepath, lines }`. -/
structure EnvDoc where
  filepath : List Char
  lines : List Line
deriving DecidableEq, Repr

/-- The quote test of `parseEnvFile` on an already-trimmed value:
`(trimmedValue.startsWith('"') && trimmedValue.endsWith('"')) ||
(trimmedValue.startsWith("'") && trimmedValue.endsWith("'"))`. -/
def quoteWrapGuard (trimmedValue : List Char) : Bool :=
  (startsWithChar trimmedValue '"' && endsWithChar trimmedValue '"')
    || (startsWithChar trimmedValue '\'' && endsWithChar trimmedValue '\'')

/-- The quote-stripping step of `parseEnvFile` applied to the text to the
right of the first `=` (the JavaScript block from `const trimmedValue =
value.trim()` down to the `else` branch): trim, then if the trimmed value
starts and ends with `"` or starts and ends with `'`, drop the first and
last character (`trimmedValue.slice(1, -1)`); otherwise keep the trimmed
value. -/
def parseRhs (value : List Char) : List Char :=
  let trimmedValue := trim value
  if quoteWrapGuard trimmedValue then
    (trimmedValue.drop 1).dropLast
  else
    trimmedValue

/-- The `encrypted:` marker test `parsedValue.startsWith('encrypted:')`. -/
def isEncryptedValue (v : List Char) : Bool :=
  "encrypted:".toList.isPrefixOf v

/-- Classification of a single raw line, i.e. one iteration of the loop in
`parseEnvFile`: blank after trimming, comment after trimming, key-value
when the raw line contains `=` (split at the first `=`, left side trimmed
as the key, right side put through the quote handling), otherwise kept
as an unknown line. -/
def parseLine (raw : List Char) : Line :=
  let trimmed := trim raw
  if trimmed = [] then .empty raw
  else if startsWithChar trimmed '#' then .comment raw
  else
    match firstIdxOf '=' raw with
    | some eqIndex =>
      let key := trim (raw.take eqIndex)
      let parsedValue := parseRhs (raw.drop (eqIndex + 1))
      .entry key parsedValue (isEncryptedValue parsedValue) raw
    | none => .unknown raw

/-- `parseEnvFile(filepath)` with the file content passed explicitly:
split the content on line feeds and classify every segment. -/
def parseEnvFile (filepath content : List Char) : EnvDoc :=
  { filepath := filepath, lines := (splitLines content).map parseLine }

/-- The re-quoting test of `writeEnvFile`: the value contains a space,
`#`, a line feed, or either quote character. -/
def needsQuotes (v : List Char) : Bool :=
  v.contains ' ' || v.contains '#' || v.contains '\n'
    || v.contains '"' || v.contains '\''

/-- `value.replace(/"/g, '\\"')`: prefix every double quote with a
backslash. -/
def escapeDq : List Char → List Char
  | [] => []
  | c :: rest =>
    if c = '"' then '\\' :: '"' :: escapeDq rest else c :: escapeDq rest

/-- The per-line emission of `writeEnvFile`: entries are recomputed from
`key` and `value` (quoted and escaped when `needsQuotes`), every other
line is emitted as its stored `raw` text. -/
def serializeLine (l : Line) : List Char :=
  match l with
  | .entry key value _ _ =>
    if needsQuotes value then
      key ++ '=' :: '"' :: (escapeDq value ++ ['"'])
    else
      key ++ '=' :: value
  | .empty raw => raw
  | .comment raw => raw
  | .unknown raw => raw

/-- `writeEnvFile(filepath, parsed)` with the write modelled as returning
the content: map every line through the emission above and join with
line feeds. -/
def writeEnvFile (doc : EnvDoc) : List Char :=
  joinNl (doc.lines.map serializeLine)

/-- The error taxonomy of the mutators (`DuplicateKeyError` and
`KeyNotFoundError` of the specification; the JavaScript throws `Error`
objects with the corresponding messages). -/
inductive EnvError
  | duplicateKey (key : List Char)
  | keyNotFound (key : List Char)
deriving DecidableEq, Repr

/-- Does the document contain an entry with key `key`? -/
def hasEntryKey (doc : EnvDoc) (key : List Char) : Bool :=
  doc.lines.any (·.isEntryWithKey key)

/-- `addEntry(parsed, key, value)`.  The mutable document is modelled by
returning the document state after the call next to the outcome: a throw
leaves the document exactly as it was (the existence check precedes the
`push`). -/
def addEntry (doc : EnvDoc) (key value : List Char) :
    Except EnvError Unit × EnvDoc :=
  if (doc.lines.find? (·.isEntryWithKey key)).isSome then
    (.error (.duplicateKey key), doc)
  else
    (.ok (),
      { doc with
        lines := doc.lines
          ++ [.entry key value (isEncryptedValue value) (key ++ '=' :: value)] })

/-- Replace the first entry with key `key` by an entry carrying the new
value, recomputed marker and recomputed `raw`, exactly as the in-place
mutation of `updateEntry` does to the object returned by `find`. -/
def updateFirst (key newValue : List Char) : List Line → List Line
  | [] => []
  | l :: rest =>
    if l.isEntryWithKey key then
      .entry key newValue (isEncryptedValue newValue)
        (key ++ '=' :: newValue) :: rest
    else l :: updateFirst key newValue rest

/-- `updateEntry(parsed, key, newValue)`, with the document state after
the call returned next to the outcome. -/
def updateEntry (doc : EnvDoc) (key newValue : List Char) :
    Except EnvError Unit × EnvDoc :=
  if (doc.lines.find? (·.isEntryWithKey key)).isSome then
    (.ok (), { doc with lines := updateFirst key newValue doc.lines })
  else
    (.error (.keyNotFound key), doc)

/-- JavaScript `lines.findIndex(predicate)` (with `none` for `-1`). -/
def findIndex (p : Line → Bool) : List Line → Option Nat
  | [] => none
  | l :: rest => if p l then some 0 else (findIndex p rest).map (· + 1)

/-- `deleteEntry(parsed, key)`: `findIndex` then `splice(index, 1)`, with
the document state after the call returned next to the outcome. -/
def deleteEntry (doc : EnvDoc) (key : List Char) :
    Except EnvError Unit × EnvDoc :=
  match findIndex (·.isEntryWithKey key) doc.lines with
  | some index => (.ok (), { doc with lines := doc.lines.eraseIdx index })
  | none => (.error (.keyNotFound key), doc)

/-! Helper lemmas about the string primitives. -/

theorem splitLines_ne_nil (s : List Char) : splitLines s ≠ [] := by
  cases s with
  | nil => simp [splitLines]
  | cons c rest =>
    simp only [splitLines]
    split
    · simp
    · split <;> simp

theorem joinNl_splitLines (s : List Char) : joinNl (splitLines s) = s := by
  induction s with
  | nil => rfl
  | cons c rest ih =>
    simp only [splitLines]
    split
    · rename_i hc
      obtain ⟨l, ls, hls⟩ := List.exists_cons_of_ne_nil (splitLines_ne_nil rest)
      rw [hls]
      rw [hls] at ih
      subst hc
      show [] ++ '\n' :: joinNl (l :: ls) = '\n' :: rest
      rw [List.nil_append, ih]
    · obtain ⟨l, ls, hls⟩ := List.exists_cons_of_ne_nil (splitLines_ne_nil rest)
      rw [hls]
      rw [hls] at ih
      cases ls with
      | nil =>
        show c :: l = c :: rest
        rw [show joinNl [l] = l from rfl] at ih
        rw [ih]
      | cons m ms =>
        show (c :: l) ++ '\n' :: joinNl (m :: ms) = c :: rest
        rw [show joinNl (l :: m :: ms) = l ++ '\n' :: joinNl (m :: ms) from rfl] at ih
        rw [List.cons_append, ih]

theorem joinNl_eq_intercalate (ls : List (List Char)) :
    joinNl ls = List.intercalate ['\n'] ls := by
  induction ls with
  | nil => simp [joinNl, List.intercalate]
  | cons l ls ih =>
    cases ls with
    | nil => simp [joinNl, List.intercalate]
    | cons m ms =>
      simp only [joinNl, ih]
      simp [List.intercalate, List.intersperse]

theorem firstIdxOf_decomp {c : Char} {s : List Char} {i : Nat}
    (h : firstIdxOf c s = some i) :
    s.take i ++ c :: s.drop (i + 1) = s := by
  induction s generalizing i with
  | nil => simp [firstIdxOf] at h
  | cons d rest ih =>
    simp only [firstIdxOf] at h
    split at h
    · rename_i hd
      cases h
      simp [hd]
    · obtain ⟨j, hj, rfl⟩ := Option.map_eq_some'.mp h
      simpa using ih hj

theorem firstIdxOf_first {c : Char} {s : List Char} {i : Nat}
    (h : firstIdxOf c s = some i) :
    s[i]? = some c ∧ ∀ j, j < i → s[j]? ≠ some c := by
  induction s generalizing i with
  | nil => simp [firstIdxOf] at h
  | cons d rest ih =>
    simp only [firstIdxOf] at h
    split at h
    · rename_i hd
      cases h
      simp [hd]
    · rename_i hd
      obtain ⟨j, hj, rfl⟩ := Option.map_eq_some'.mp h
      refine ⟨by simpa using (ih hj).1, ?_⟩
      intro k hk
      cases k with
      | zero => simpa using hd
      | succ k => simpa using (ih hj).2 k (by omega)

theorem firstIdxOf_eq_none_iff (c : Char) (s : List Char) :
    firstIdxOf c s = none ↔ s.contains c = false := by
  induction s with
  | nil => simp [firstIdxOf]
  | cons d rest ih =>
    simp only [firstIdxOf, List.contains_cons]
    split
    · rename_i hd
      simp [hd]
    · rename_i hd
      simp only [Option.map_eq_none', Bool.or_eq_false_iff, ih]
      have hcd : (c == d) = false := beq_eq_false_iff_ne.mpr (Ne.symm hd)
      simp [hcd]

theorem startsWithChar_contains {s : List Char} {c : Char}
    (h : startsWithChar s c = true) : s.contains c = true := by
  cases s with
  | nil => simp [startsWithChar] at h
  | cons d rest =>
    simp only [startsWithChar, decide_eq_true_eq] at h
    simp [List.contains_cons, h]

theorem startsWithChar_cons (c : Char) (l : List Char) :
    startsWithChar (c :: l) c = true := by
  simp [startsWithChar]

theorem endsWithChar_concat (c : Char) (l : List Char) :
    endsWithChar (l ++ [c]) c = true := by
  simp [endsWithChar, startsWithChar]

/-! Case lemmas for `parseLine`, one per classification branch. -/

theorem parseLine_empty {raw : List Char} (h : trim raw = []) :
    parseLine raw = .empty raw := by
  simp [parseLine, h]

theorem parseLine_comment {raw : List Char} (h1 : trim raw ≠ [])
    (h2 : startsWithChar (trim raw) '#' = true) :
    parseLine raw = .comment raw := by
  simp [parseLine, h1, h2]

theorem parseLine_entry {raw : List Char} {i : Nat} (h1 : trim raw ≠ [])
    (h2 : startsWithChar (trim raw) '#' = false)
    (h3 : firstIdxOf '=' raw = some i) :
    parseLine raw
      = .entry (trim (raw.take i)) (parseRhs (raw.drop (i + 1)))
          (isEncryptedValue (parseRhs (raw.drop (i + 1)))) raw := by
  simp [parseLine, h1, h2, h3]

theorem parseLine_unknown {raw : List Char} (h1 : trim raw ≠ [])
    (h2 : startsWithChar (trim raw) '#' = false)
    (h3 : firstIdxOf '=' raw = none) :
    parseLine raw = .unknown raw := by
  simp [parseLine, h1, h2, h3]

theorem parseLine_rawOf (raw : List Char) : (parseLine raw).rawOf = raw := by
  by_cases h1 : trim raw = []
  · rw [parseLine_empty h1]; rfl
  · by_cases h2 : startsWithChar (trim raw) '#' = true
    · rw [parseLine_comment h1 h2]; rfl
    · have h2' : startsWithChar (trim raw) '#' = false := by
        simpa using h2
      cases h3 : firstIdxOf '=' raw with
      | some i => rw [parseLine_entry h1 h2' h3]; rfl
      | none => rw [parseLine_unknown h1 h2' h3]; rfl

/-- C8: the parser is total on the content: `parseEnvFile` classifies
every segment of the line-feed split through `parseLine`, which maps
every input line to exactly one `Line` variant carrying that line as its
raw text and raises no error; the classification is empty-after-trim,
then comment-after-trim (leading `#`), then entry when the line contains
`=`, otherwise unknown. -/
theorem c8_parser_total_classification (filepath content : List Char) :
    (parseEnvFile filepath content).lines = (splitLines content).map parseLine ∧
    ∀ raw : List Char,
      (parseLine raw).rawOf = raw ∧
      (trim raw = [] → parseLine raw = .empty raw) ∧
      (trim raw ≠ [] → startsWithChar (trim raw) '#' = true →
        parseLine raw = .comment raw) ∧
      (trim raw ≠ [] → startsWithChar (trim raw) '#' = false →
        raw.contains '=' = true → (parseLine raw).isEntry = true) ∧
      (trim raw ≠ [] → startsWithChar (trim raw) '#' = false →
        raw.contains '=' = false → parseLine raw = .unknown raw) := by
  refine ⟨rfl, fun raw => ⟨parseLine_rawOf raw, fun h1 => parseLine_empty h1,
    fun h1 h2 => parseLine_comment h1 h2, fun h1 h2 hc => ?_, fun h1 h2 hc => ?_⟩⟩
  · cases h3 : firstIdxOf '=' raw with
    | some i => rw [parseLine_entry h1 h2 h3]; rfl
    | none =>
      rw [(firstIdxOf_eq_none_iff '=' raw).mp h3] at hc
      cases hc
  · exact parseLine_unknown h1 h2 ((firstIdxOf_eq_none_iff '=' raw).mpr hc)

/-- Witness for C8 at the concrete line `# note`. -/
theorem c8_parser_total_classification_witness :
    parseLine "# note".toList = Line.comment "# note".toList :=
  ((c8_parser_total_classification [] []).2 "# note".toList).2.2.1
    (by decide) (by decide)

/-- The right-hand-side value rule exactly as claim C2 states it,
including its requirement that the trimmed string have length at least 2
before the quote stripping applies. -/
def specC2Value (value : List Char) : List Char :=
  let t := trim value
  if decide (2 ≤ t.length) && quoteWrapGuard t then
    (t.drop 1).dropLast
  else t

/-- C2 counterexample: on the line `A="` the trimmed right side is the
single character `"`, which starts and ends with `"`; the code strips it
(`slice(1, -1)` of a one-character string) and stores the empty value,
while the claim's length-at-least-2 rule keeps the quote verbatim. -/
theorem c2_counterexample :
    parseLine "A=\"".toList = Line.entry "A".toList [] false "A=\"".toList ∧
    specC2Value ("A=\"".toList.drop 2) = "\"".toList ∧
    ([] : List Char) ≠ "\"".toList := by
  decide

theorem quoteWrapGuard_wrap (q : Char) (mid : List Char)
    (hq : q = '"' ∨ q = '\'') :
    quoteWrapGuard (q :: (mid ++ [q])) = true := by
  have he : endsWithChar (q :: (mid ++ [q])) q = true := by
    have h0 := endsWithChar_concat q (q :: mid)
    rwa [List.cons_append] at h0
  rcases hq with rfl | rfl <;>
    simp [quoteWrapGuard, startsWithChar_cons, he]

theorem quoteWrapGuard_singleton (q : Char) (hq : q = '"' ∨ q = '\'') :
    quoteWrapGuard [q] = true := by
  rcases hq with rfl | rfl <;> decide

/-- C2 amended: for a line classified as an entry the value is computed
from the right side of the first `=` by trimming it and then, when the
trimmed string starts and ends with the same quote character, stripping
exactly one leading and one trailing character with no unescaping of the
interior — with no length requirement, so a trimmed right side that is a
single quote character yields the empty value; otherwise the value is
the trimmed right side verbatim. -/
theorem c2_value_rule (raw : List Char) (i : Nat)
    (h1 : trim raw ≠ []) (h2 : startsWithChar (trim raw) '#' = false)
    (h3 : firstIdxOf '=' raw = some i) :
    parseLine raw
      = Line.entry (trim (raw.take i)) (parseRhs (raw.drop (i + 1)))
          (isEncryptedValue (parseRhs (raw.drop (i + 1)))) raw ∧
    (∀ q mid, (q = '"' ∨ q = '\'') →
      trim (raw.drop (i + 1)) = q :: (mid ++ [q]) →
      parseRhs (raw.drop (i + 1)) = mid) ∧
    (∀ q, (q = '"' ∨ q = '\'') →
      trim (raw.drop (i + 1)) = [q] →
      parseRhs (raw.drop (i + 1)) = []) ∧
    (quoteWrapGuard (trim (raw.drop (i + 1))) = false →
      parseRhs (raw.drop (i + 1)) = trim (raw.drop (i + 1))) := by
  refine ⟨parseLine_entry h1 h2 h3, ?_, ?_, ?_⟩
  · intro q mid hq ht
    have hguard : quoteWrapGuard (q :: (mid ++ [q])) = true :=
      quoteWrapGuard_wrap q mid hq
    simp [parseRhs, ht, hguard, List.dropLast_concat]
  · intro q hq ht
    have hguard : quoteWrapGuard [q] = true := quoteWrapGuard_singleton q hq
    simp [parseRhs, ht, hguard]
  · intro hguard
    simp [parseRhs, hguard]

/-- Witness for C2 (amended) at the concrete line `A='x'`. -/
theorem c2_value_rule_witness :
    parseRhs ("A='x'".toList.drop 2) = "x".toList :=
  (c2_value_rule "A='x'".toList 1 (by decide) (by decide) (by decide)).2.1
    '\'' "x".toList (Or.inr rfl) (by decide)

/-- Advance helper for `firstUnescapedEqIdx`: the previously seen
character, the current index, and the rest of the string. -/
def firstUnescapedEqAux : Option Char → Nat → List Char → Option Nat
  | _, _, [] => none
  | prev, i, c :: rest =>
    if c = '=' && !(prev == some '\\') then some i
    else firstUnescapedEqAux (some c) (i + 1) rest

/-- Index of the first unescaped `=` in the sense of claim C7: the first
`=` character not immediately preceded by a backslash. -/
def firstUnescapedEqIdx (s : List Char) : Option Nat :=
  firstUnescapedEqAux none 0 s

/-- C7 counterexample: on the line `a\=b=c` the code splits at the very
first `=` even though a backslash precedes it, producing key `a\` and
value `b=c`; the first unescaped `=` sits at index 4 and the claim would
therefore make the key `a\=b`. -/
theorem c7_counterexample :
    parseLine "a\\=b=c".toList
      = Line.entry "a\\".toList "b=c".toList false "a\\=b=c".toList ∧
    firstUnescapedEqIdx "a\\=b=c".toList = some 4 ∧
    trim ("a\\=b=c".toList.take 4) = "a\\=b".toList ∧
    "a\\".toList ≠ "a\\=b".toList := by
  decide

/-- C7 amended: for every line classified as an entry, parse splits the
line at the first `=` character — whether or not a backslash precedes
it: the key is the trimmed substring before that `=`, and the value
portion is everything after it (which may itself contain further `=`
characters). -/
theorem c7_split_first_eq (raw : List Char) (i : Nat)
    (h1 : trim raw ≠ []) (h2 : startsWithChar (trim raw) '#' = false)
    (h3 : firstIdxOf '=' raw = some i) :
    parseLine raw
      = Line.entry (trim (raw.take i)) (parseRhs (raw.drop (i + 1)))
          (isEncryptedValue (parseRhs (raw.drop (i + 1)))) raw ∧
    raw[i]? = some '=' ∧
    (∀ j, j < i → raw[j]? ≠ some '=') :=
  ⟨parseLine_entry h1 h2 h3, (firstIdxOf_first h3).1, (firstIdxOf_first h3).2⟩

/-- Witness for C7 (amended) at the concrete line `KEY=a=b`. -/
theorem c7_split_first_eq_witness :
    parseLine "KEY=a=b".toList
      = Line.entry "KEY".toList "a=b".toList false "KEY=a=b".toList := by
  rw [(c7_split_first_eq "KEY=a=b".toList 3 (by decide) (by decide)
    (by decide)).1]
  decide

/-- The escaping rule as the specification words it — every embedded
double quote prefixed by a backslash — written character by character as
a flat map, independently of the implementation's `escapeDq`. -/
def specEscape (v : List Char) : List Char :=
  v.flatMap fun c => if c = '"' then ['\\', '"'] else [c]

theorem escapeDq_eq_specEscape (v : List Char) : escapeDq v = specEscape v := by
  induction v with
  | nil => rfl
  | cons c rest ih =>
    by_cases h : c = '"' <;> simp [escapeDq, specEscape, h] <;>
      simpa [specEscape] using ih

/-- C3: the serializer emits the stored raw text unchanged for blank,
comment and unrecognized lines; for an entry it emits `key="v"` with
every embedded double quote prefixed by a backslash exactly when the
value contains a space, `#`, a line feed, or either quote character, and
`key=value` unquoted otherwise; and the emitted line strings are joined
with exactly one line feed between consecutive lines, with no additional
trailing line feed appended. -/
theorem c3_serializer_shape (doc : EnvDoc) :
    (∀ raw, serializeLine (.empty raw) = raw
      ∧ serializeLine (.comment raw) = raw
      ∧ serializeLine (.unknown raw) = raw) ∧
    (∀ key value encrypted raw, needsQuotes value = true →
      serializeLine (.entry key value encrypted raw)
        = key ++ '=' :: '"' :: (specEscape value ++ ['"'])) ∧
    (∀ key value encrypted raw, needsQuotes value = false →
      serializeLine (.entry key value encrypted raw) = key ++ '=' :: value) ∧
    (∀ value : List Char, needsQuotes value = true ↔
      (' ' ∈ value ∨ '#' ∈ value ∨ '\n' ∈ value
        ∨ '"' ∈ value ∨ '\'' ∈ value)) ∧
    writeEnvFile doc = List.intercalate ['\n'] (doc.lines.map serializeLine) := by
  refine ⟨fun raw => ⟨rfl, rfl, rfl⟩, ?_, ?_, ?_, ?_⟩
  · intro key value encrypted raw h
    simp [serializeLine, h, escapeDq_eq_specEscape]
  · intro key value encrypted raw h
    simp [serializeLine, h]
  · intro value
    simp [needsQuotes, or_assoc]
  · rw [writeEnvFile, joinNl_eq_intercalate]

/-- Witness for C3 at a value containing a space and a double quote. -/
theorem c3_serializer_shape_witness :
    serializeLine (Line.entry "A".toList "a \"b".toList false [])
      = "A=\"a \\\"b\"".toList := by
  rw [(c3_serializer_shape ⟨[], []⟩).2.1 "A".toList "a \"b".toList false []
    (by decide)]
  decide

theorem find?_isSome_any (p : Line → Bool) (l : List Line) :
    (l.find? p).isSome = l.any p := by
  induction l with
  | nil => rfl
  | cons x xs ih =>
    by_cases h : p x = true
    · simp [List.find?_cons_of_pos _ h, h]
    · have h' : p x = false := by simpa using h
      simp [List.find?_cons_of_neg _ h, h', ih]

theorem findIndex_eq_none_iff (p : Line → Bool) (l : List Line) :
    findIndex p l = none ↔ l.any p = false := by
  induction l with
  | nil => simp [findIndex]
  | cons x xs ih =>
    by_cases h : p x <;> simp [findIndex, h, ih]

theorem findIndex_spec {p : Line → Bool} {l : List Line} {i : Nat}
    (h : findIndex p l = some i) :
    (∃ x, l[i]? = some x ∧ p x = true) ∧
    ∀ j, j < i → ∀ x, l[j]? = some x → p x = false := by
  induction l generalizing i with
  | nil => simp [findIndex] at h
  | cons y ys ih =>
    simp only [findIndex] at h
    split at h
    · rename_i hy
      cases h
      refine ⟨⟨y, by simp, hy⟩, ?_⟩
      intro j hj
      exact absurd hj (Nat.not_lt_zero j)
    · rename_i hy
      obtain ⟨j, hj, rfl⟩ := Option.map_eq_some'.mp h
      obtain ⟨⟨x, hx, hpx⟩, hfirst⟩ := ih hj
      refine ⟨⟨x, by simpa using hx, hpx⟩, ?_⟩
      intro k hk z hz
      cases k with
      | zero =>
        simp only [List.getElem?_cons_zero, Option.some.injEq] at hz
        subst hz
        simpa using hy
      | succ k =>
        exact hfirst k (by omega) z (by simpa using hz)

/-- C4: `addEntry` fails with the duplicate-key error exactly when an
entry with the key already exists, `updateEntry` and `deleteEntry` fail
with the key-not-found error exactly when no entry with the key exists,
and in every failing case the document — its line sequence included — is
exactly what it was before the call. -/
theorem c4_failure_conditions (doc : EnvDoc) (key value newValue : List Char) :
    ((addEntry doc key value).1 = .error (.duplicateKey key)
      ↔ hasEntryKey doc key = true) ∧
    ((updateEntry doc key newValue).1 = .error (.keyNotFound key)
      ↔ hasEntryKey doc key = false) ∧
    ((deleteEntry doc key).1 = .error (.keyNotFound key)
      ↔ hasEntryKey doc key = false) ∧
    (hasEntryKey doc key = true → (addEntry doc key value).2 = doc) ∧
    (hasEntryKey doc key = false → (updateEntry doc key newValue).2 = doc) ∧
    (hasEntryKey doc key = false → (deleteEntry doc key).2 = doc) := by
  have hfind : (doc.lines.find? (·.isEntryWithKey key)).isSome
      = hasEntryKey doc key := find?_isSome_any _ _
  cases hk : hasEntryKey doc key with
  | true =>
    have hidx : ∃ i, findIndex (·.isEntryWithKey key) doc.lines = some i := by
      cases hi : findIndex (·.isEntryWithKey key) doc.lines with
      | some i => exact ⟨i, rfl⟩
      | none =>
        have hfalse := (findIndex_eq_none_iff _ _).mp hi
        rw [show (doc.lines.any (·.isEntryWithKey key)) = hasEntryKey doc key
          from rfl, hk] at hfalse
        exact Bool.noConfusion hfalse
    obtain ⟨i, hi⟩ := hidx
    rw [hk] at hfind
    simp [addEntry, updateEntry, deleteEntry, hfind, hi]
  | false =>
    have hidx : findIndex (·.isEntryWithKey key) doc.lines = none :=
      (findIndex_eq_none_iff _ _).mpr hk
    rw [hk] at hfind
    simp [addEntry, updateEntry, deleteEntry, hfind, hidx]

/-- Witness for C4: adding an existing key fails and leaves the parsed
document unchanged. -/
theorem c4_failure_conditions_witness :
    (addEntry (parseEnvFile [] "A=1".toList) "A".toList "2".toList).2
      = parseEnvFile [] "A=1".toList :=
  (c4_failure_conditions (parseEnvFile [] "A=1".toList) "A".toList
    "2".toList "x".toList).2.2.2.1 (by decide)

/-- C5: when no entry with the key exists, `addEntry` succeeds and
appends exactly one new entry line — carrying the supplied key and value
— at the end of the line sequence (never at an earlier position),
leaving every pre-existing line and the file path unchanged. -/
theorem c5_addEntry_appends (doc : EnvDoc) (key value : List Char)
    (h : hasEntryKey doc key = false) :
    (addEntry doc key value).1 = .ok () ∧
    (addEntry doc key value).2.lines
      = doc.lines
        ++ [Line.entry key value (isEncryptedValue value)
              (key ++ '=' :: value)] ∧
    (addEntry doc key value).2.filepath = doc.filepath := by
  have hfind : (doc.lines.find? (·.isEntryWithKey key)).isSome = false := by
    rw [find?_isSome_any]; exact h
  simp [addEntry, hfind]

/-- Witness for C5 on a document that does not contain key `B`. -/
theorem c5_addEntry_appends_witness :
    (addEntry (parseEnvFile [] "A=1".toList) "B".toList "2".toList).2.lines
      = (parseEnvFile [] "A=1".toList).lines
        ++ [Line.entry "B".toList "2".toList
              (isEncryptedValue "2".toList) ("B".toList ++ '=' :: "2".toList)] :=
  (c5_addEntry_appends (parseEnvFile [] "A=1".toList) "B".toList "2".toList
    (by decide)).2.1

/-- C6: when an entry with the key exists, `deleteEntry` succeeds and
removes exactly the first such entry line: index `i` holds an entry with
the key, every earlier line does not, and the resulting sequence is the
lines before index `i` followed by the lines after it — so every other
line (blanks, comments, unrecognized lines, and later duplicates of the
same key included) is unchanged and keeps its relative order. -/
theorem c6_deleteEntry_removes_first (doc : EnvDoc) (key : List Char) (i : Nat)
    (h : findIndex (·.isEntryWithKey key) doc.lines = some i) :
    (deleteEntry doc key).1 = .ok () ∧
    (deleteEntry doc key).2.lines
      = doc.lines.take i ++ doc.lines.drop (i + 1) ∧
    (deleteEntry doc key).2.filepath = doc.filepath ∧
    (∃ x, doc.lines[i]? = some x ∧ x.isEntryWithKey key = true) ∧
    (∀ j, j < i → ∀ x, doc.lines[j]? = some x →
      x.isEntryWithKey key = false) := by
  refine ⟨?_, ?_, ?_, (findIndex_spec h).1, (findIndex_spec h).2⟩
  · simp [deleteEntry, h]
  · simp [deleteEntry, h, List.eraseIdx_eq_take_drop_succ]
  · simp [deleteEntry, h]

/-- Witness for C6 on a document with a duplicate key: only the first
`A` entry is removed. -/
theorem c6_deleteEntry_removes_first_witness :
    (deleteEntry (parseEnvFile [] "A=1\nA=2".toList) "A".toList).2.lines
      = (parseEnvFile [] "A=1\nA=2".toList).lines.take 0
        ++ (parseEnvFile [] "A=1\nA=2".toList).lines.drop 1 :=
  (c6_deleteEntry_removes_first (parseEnvFile [] "A=1\nA=2".toList)
    "A".toList 0 (by decide)).2.1

/-- The per-line invariant of claim C9: an entry's `encrypted` flag
equals the `encrypted:` prefix test on its stored value. -/
def EntryMarkerInv (l : Line) : Prop :=
  ∀ key value encrypted raw, l = .entry key value encrypted raw →
    encrypted = isEncryptedValue value

/-- Claim C9's invariant over a whole document. -/
def DocMarkerInv (doc : EnvDoc) : Prop := ∀ l ∈ doc.lines, EntryMarkerInv l

theorem parseLine_markerInv (raw : List Char) :
    EntryMarkerInv (parseLine raw) := by
  intro k v e r hline
  by_cases h1 : trim raw = []
  · rw [parseLine_empty h1] at hline
    cases hline
  · by_cases h2 : startsWithChar (trim raw) '#' = true
    · rw [parseLine_comment h1 h2] at hline
      cases hline
    · have h2' : startsWithChar (trim raw) '#' = false := by simpa using h2
      cases h3 : firstIdxOf '=' raw with
      | some i =>
        rw [parseLine_entry h1 h2' h3] at hline
        obtain ⟨-, hv, he, -⟩ := Line.entry.inj hline
        rw [← he, ← hv]
      | none =>
        rw [parseLine_unknown h1 h2' h3] at hline
        cases hline

theorem updateFirst_markerInv (key newValue : List Char) (l : List Line)
    (h : ∀ x ∈ l, EntryMarkerInv x) :
    ∀ x ∈ updateFirst key newValue l, EntryMarkerInv x := by
  induction l with
  | nil => simp [updateFirst]
  | cons y ys ih =>
    simp only [updateFirst]
    split
    · intro x hx
      rcases List.mem_cons.mp hx with rfl | hmem
      · intro k v e r hline
        obtain ⟨-, hv, he, -⟩ := Line.entry.inj hline
        rw [← he, ← hv]
      · exact h x (List.mem_cons_of_mem y hmem)
    · intro x hx
      rcases List.mem_cons.mp hx with rfl | hmem
      · exact h x (List.mem_cons_self x ys)
      · exact ih (fun z hz => h z (List.mem_cons_of_mem y hz)) x hmem

/-- C9: in every document produced by `parseEnvFile`, and after every
successful `addEntry` or `updateEntry` on a document satisfying the
invariant, each entry's `encrypted` flag equals the test of whether its
stored value begins with the literal prefix `encrypted:`. -/
theorem c9_encrypted_marker :
    (∀ filepath content, DocMarkerInv (parseEnvFile filepath content)) ∧
    (∀ doc key value, DocMarkerInv doc →
      (addEntry doc key value).1 = .ok () →
      DocMarkerInv (addEntry doc key value).2) ∧
    (∀ doc key newValue, DocMarkerInv doc →
      (updateEntry doc key newValue).1 = .ok () →
      DocMarkerInv (updateEntry doc key newValue).2) := by
  refine ⟨?_, ?_, ?_⟩
  · intro filepath content l hl
    simp only [parseEnvFile, List.mem_map] at hl
    obtain ⟨raw, -, rfl⟩ := hl
    exact parseLine_markerInv raw
  · intro doc key value hinv hok
    by_cases hfind : (doc.lines.find? (·.isEntryWithKey key)).isSome = true
    · simp [addEntry, hfind]
      exact hinv
    · have hfind' : (doc.lines.find? (·.isEntryWithKey key)).isSome = false := by
        simpa using hfind
      intro l hl
      simp only [addEntry, hfind', Bool.false_eq_true, if_false,
        List.mem_append, List.mem_singleton] at hl
      rcases hl with hmem | rfl
      · exact hinv l hmem
      · intro k v e r hline
        obtain ⟨-, hv, he, -⟩ := Line.entry.inj hline
        rw [← he, ← hv]
  · intro doc key newValue hinv hok
    by_cases hfind : (doc.lines.find? (·.isEntryWithKey key)).isSome = true
    · intro l hl
      simp only [updateEntry, hfind, if_true] at hl
      exact updateFirst_markerInv key newValue doc.lines hinv l hl
    · have hfind' : (doc.lines.find? (·.isEntryWithKey key)).isSome = false := by
        simpa using hfind
      simp [updateEntry, hfind']
      exact hinv

/-- Witness for C9: the invariant holds after a successful update that
stores an `encrypted:`-prefixed value. -/
theorem c9_encrypted_marker_witness :
    DocMarkerInv
      (updateEntry (parseEnvFile [] "A=1".toList) "A".toList
        "encrypted:x".toList).2 :=
  c9_encrypted_marker.2.2 (parseEnvFile [] "A=1".toList) "A".toList
    "encrypted:x".toList (c9_encrypted_marker.1 [] "A=1".toList) rfl

/-- Two lines that are equal except possibly in the `raw` field of an
entry: non-entry lines must agree on their raw text, entries must agree
on key, value and marker but may differ in `raw`. -/
def RawAgnostic : Line → Line → Prop
  | .entry k v e _, .entry k' v' e' _ => k = k' ∧ v = v' ∧ e = e'
  | .empty r, .empty r' => r = r'
  | .comment r, .comment r' => r = r'
  | .unknown r, .unknown r' => r = r'
  | _, _ => False

theorem serializeLine_rawAgnostic {l1 l2 : Line} (h : RawAgnostic l1 l2) :
    serializeLine l1 = serializeLine l2 := by
  cases l1 <;> cases l2 <;> simp only [RawAgnostic] at h <;> try exact h.elim
  · rename_i r r'
    rw [show serializeLine (.empty r) = r from rfl,
      show serializeLine (.empty r') = r' from rfl, h]
  · rename_i r r'
    rw [show serializeLine (.comment r) = r from rfl,
      show serializeLine (.comment r') = r' from rfl, h]
  · rename_i k v e r k' v' e' r'
    obtain ⟨rfl, rfl, rfl⟩ := h
    rfl
  · rename_i r r'
    rw [show serializeLine (.unknown r) = r from rfl,
      show serializeLine (.unknown r') = r' from rfl, h]

/-- C10: serialization does not read the `raw` field of entry lines: two
documents whose line sequences agree up to entry raw text (and whatever
their file paths) serialize to identical output, so a stale or unquoted
entry `raw` — as stored by `addEntry` and `updateEntry` even for values
that need quoting — never affects the saved file. -/
theorem map_serializeLine_rawAgnostic {l1 l2 : List Line}
    (h : List.Forall₂ RawAgnostic l1 l2) :
    l1.map serializeLine = l2.map serializeLine := by
  induction h with
  | nil => rfl
  | cons hx _ ih =>
    simp only [List.map_cons, ih, serializeLine_rawAgnostic hx]

theorem c10_serialize_raw_agnostic (d1 d2 : EnvDoc)
    (h : List.Forall₂ RawAgnostic d1.lines d2.lines) :
    writeEnvFile d1 = writeEnvFile d2 := by
  rw [writeEnvFile, writeEnvFile, map_serializeLine_rawAgnostic h]

/-- Witness for C10: an entry whose stored raw text is stale (it does not
even contain the key) serializes identically to the entry with the
recomputed raw text, for a value that needs quoting. -/
theorem c10_serialize_raw_agnostic_witness :
    writeEnvFile ⟨[], [Line.entry "A".toList "a b".toList false
        "A=a b".toList]⟩
      = writeEnvFile ⟨"p".toList, [Line.entry "A".toList "a b".toList false
        []]⟩ :=
  c10_serialize_raw_agnostic _ _ (.cons ⟨rfl, rfl, rfl⟩ .nil)

/-- Is the right side of the first `=`, after trimming, single-quoted
(it starts and ends with `'`)?  Used to state claim C1's precondition. -/
def isSingleQuotedRhs (raw : List Char) : Bool :=
  match firstIdxOf '=' raw with
  | some i =>
    startsWithChar (trim (raw.drop (i + 1))) '\''
      && endsWithChar (trim (raw.drop (i + 1))) '\''
  | none => false

/-- The precondition of claim C1 exactly as stated: no value of the text
is single-quoted and no value requires re-quoting (no parsed value
contains a space, `#`, a line feed, or a quote character). -/
def c1ClaimPrecondition (content : List Char) : Bool :=
  (splitLines content).all fun raw =>
    match parseLine raw with
    | .entry _ value _ _ => !(isSingleQuotedRhs raw) && !(needsQuotes value)
    | _ => true

/-- C1 counterexample: the texts `A= 1` and `A="1"` contain no
single-quoted value and no value requiring re-quoting, yet both
serialize to `A=1` after parsing with no mutation — the code also
normalizes whitespace around `=` and drops the quotes of a double-quoted
value that needs no re-quoting, cases the claim's precondition does not
exclude. -/
theorem c1_counterexample :
    c1ClaimPrecondition "A= 1".toList = true ∧
    writeEnvFile (parseEnvFile [] "A= 1".toList) ≠ "A= 1".toList ∧
    c1ClaimPrecondition "A=\"1\"".toList = true ∧
    writeEnvFile (parseEnvFile [] "A=\"1\"".toList) ≠ "A=\"1\"".toList := by
  decide

/-- The amended side condition of claim C1 on one raw line: if the line
is classified as an entry, then the text before the first `=` and the
text after it carry no surrounding whitespace (each equals its own trim)
and the text after the first `=` contains no space, `#`, line feed or
quote character — in particular it is neither single- nor double-quoted
and needs no re-quoting. -/
def entryCanonical (raw : List Char) : Bool :=
  if trim raw = [] then true
  else if startsWithChar (trim raw) '#' then true
  else
    match firstIdxOf '=' raw with
    | none => true
    | some i =>
      (raw.take i == trim (raw.take i))
        && (raw.drop (i + 1) == trim (raw.drop (i + 1)))
        && !needsQuotes (raw.drop (i + 1))

theorem serializeLine_parseLine (raw : List Char)
    (h : entryCanonical raw = true) :
    serializeLine (parseLine raw) = raw := by
  by_cases h1 : trim raw = []
  · rw [parseLine_empty h1]; rfl
  · by_cases h2 : startsWithChar (trim raw) '#' = true
    · rw [parseLine_comment h1 h2]; rfl
    · have h2' : startsWithChar (trim raw) '#' = false := by simpa using h2
      cases h3 : firstIdxOf '=' raw with
      | none => rw [parseLine_unknown h1 h2' h3]; rfl
      | some i =>
        rw [parseLine_entry h1 h2' h3]
        simp only [entryCanonical, h1, h2', h3, if_false, Bool.false_eq_true,
          Bool.and_eq_true, beq_iff_eq, Bool.not_eq_true'] at h
        obtain ⟨⟨hkey, hval⟩, hnq⟩ :
            (raw.take i = trim (raw.take i)
              ∧ raw.drop (i + 1) = trim (raw.drop (i + 1)))
            ∧ needsQuotes (raw.drop (i + 1)) = false := by tauto
        have hnq' := hnq
        simp only [needsQuotes, Bool.or_eq_false_iff] at hnq'
        obtain ⟨⟨⟨⟨-, -⟩, -⟩, hdq⟩, hsq⟩ := hnq'
        have hsd : startsWithChar (raw.drop (i + 1)) '"' = false := by
          by_contra hc
          have hs : startsWithChar (raw.drop (i + 1)) '"' = true := by
            simpa using hc
          rw [startsWithChar_contains hs] at hdq
          exact Bool.noConfusion hdq
        have hss : startsWithChar (raw.drop (i + 1)) '\'' = false := by
          by_contra hc
          have hs : startsWithChar (raw.drop (i + 1)) '\'' = true := by
            simpa using hc
          rw [startsWithChar_contains hs] at hsq
          exact Bool.noConfusion hsq
        have hguard : quoteWrapGuard (trim (raw.drop (i + 1))) = false := by
          rw [← hval]
          simp [quoteWrapGuard, hsd, hss]
        have hpr : parseRhs (raw.drop (i + 1)) = raw.drop (i + 1) := by
          simp only [parseRhs, hguard, Bool.false_eq_true, if_false]
          exact hval.symm
        rw [hpr, ← hkey]
        simp only [serializeLine, hnq, Bool.false_eq_true, if_false]
        exact firstIdxOf_decomp h3

/-- C1 amended: serializing the document produced by parsing a text,
with no mutation in between, returns the original text byte for byte
whenever every line of the text satisfies the canonical-entry condition:
each entry line carries no whitespace around the first `=` and the text
after the first `=` contains no space, `#`, line feed or quote
character.  (The claim's original precondition — no single-quoted value
and no value requiring re-quoting — is not sufficient, as the
counterexample shows: whitespace around `=` and double quotes around a
value that needs none are also normalized away.) -/
theorem c1_round_trip (filepath content : List Char)
    (h : ∀ raw ∈ splitLines content, entryCanonical raw = true) :
    writeEnvFile (parseEnvFile filepath content) = content := by
  show joinNl (((splitLines content).map parseLine).map serializeLine)
    = content
  rw [List.map_map]
  have hm : List.map (serializeLine ∘ parseLine) (splitLines content)
      = List.map id (splitLines content) :=
    List.map_congr_left (fun raw hraw =>
      serializeLine_parseLine raw (h raw hraw))
  rw [hm, List.map_id]
  exact joinNl_splitLines content

/-- Witness for C1 (amended) on a text with a comment, two entries, a
blank line and a trailing line feed. -/
theorem c1_round_trip_witness :
    (∀ raw ∈ splitLines "# comment\nA=1\n\nB=x\n".toList,
      entryCanonical raw = true) ∧
    writeEnvFile (parseEnvFile [] "# comment\nA=1\n\nB=x\n".toList)
      = "# comment\nA=1\n\nB=x\n".toList :=
  ⟨by decide, c1_round_trip [] "# comment\nA=1\n\nB=x\n".toList (by decide)⟩

end EnvService
